import Mathlib

/-!
Verification of the retro_pc_crt_expand pixel pipeline.

The source is a single Python file built around PIL images and numpy
uint8 arrays.  We embed it shallowly: an image is a pair of dimensions
together with a total pixel function returning an (R,G,B) triple of
naturals (8-bit channel values in the reachable states), and every
numeric step of the source is rendered over ℚ with the float-to-integer
truncation made explicit.  External library resampling primitives
(PIL nearest / bicubic kernels) are modelled as total dimension-correct
samplers, as the design document declares them external collaborators;
no theorem below depends on their pixel values, only on their output
dimensions, which the source chooses explicitly.
-/

/-- An RGB image: dimensions plus a total pixel function.  Pixels are
(R,G,B) triples of naturals; in the states produced by the pipeline each
channel is an 8-bit value (≤ 255). -/
structure Img where
  width : ℕ
  height : ℕ
  pix : ℕ → ℕ → ℕ × ℕ × ℕ

/-- Truncation of a nonnegative rational to a natural number.  This models
both Python's `int(...)` and numpy's `.astype(np.uint8)` narrowing on the
nonnegative values arising in the pipeline: both truncate the fractional
part (they do NOT round to nearest). -/
def truncQ (q : ℚ) : ℕ := ⌊q⌋₊

/-- Round-to-nearest of a rational to a natural number (what the design
document's `round(...)` denotes).  Used only to compare the specified
rounding against the code's truncation. -/
def roundQ (q : ℚ) : ℕ := (round q).toNat

/-- Channel accessor: channel 0 is R, 1 is G, anything else B. -/
def chan : ℕ × ℕ × ℕ → ℕ → ℕ
  | p, 0 => p.1
  | p, 1 => p.2.1
  | p, _ => p.2.2

/-- Per-channel blur weight selection matching `blur_ratio_rgb[c]`. -/
def ratioOf (c : ℕ) (rR rG rB : ℚ) : ℚ :=
  if c = 0 then rR else if c = 1 then rG else rB

/-- Nearest-neighbour resampling (`Image.Resampling.NEAREST`), an external
PIL primitive (spec §1): modelled with PIL's pixel-centre source index
`floor((x+0.5)*srcW/dstW)`.  Only its output dimensions are relied upon
by the theorems below. -/
def resizeNearest (img : Img) (w h : ℕ) : Img :=
  ⟨w, h, fun x y =>
    img.pix ((2 * x + 1) * img.width / (2 * w)) ((2 * y + 1) * img.height / (2 * h))⟩

/-- Bicubic resampling (`Image.Resampling.BICUBIC`), an external PIL
primitive (spec §1): modelled as a dimension-correct sampler.  Only its
output dimensions are relied upon by the theorems below. -/
def resizeBicubic (img : Img) (w h : ℕ) : Img :=
  ⟨w, h, fun x y =>
    img.pix ((2 * x + 1) * img.width / (2 * w)) ((2 * y + 1) * img.height / (2 * h))⟩

/-- `Image.new("RGB", (w, h), bg)`. -/
def newCanvas (w h : ℕ) (bg : ℕ × ℕ × ℕ) : Img := ⟨w, h, fun _ _ => bg⟩

/-- `image.crop((left, top, right, bottom))`. -/
def cropBox (img : Img) (left top right bottom : ℕ) : Img :=
  ⟨right - left, bottom - top, fun x y => img.pix (x + left) (y + top)⟩

/-- `base.paste(over, (px, py))` returning the mutated canvas. -/
def pasteAt (base over : Img) (px py : ℕ) : Img :=
  ⟨base.width, base.height, fun x y =>
    if px ≤ x ∧ x < px + over.width ∧ py ≤ y ∧ y < py + over.height then
      over.pix (x - px) (y - py)
    else base.pix x y⟩

/-- The mode → target height table of `preprocess` (MSX1 → 192,
MSX2 → 212, anything else → 224). -/
def targetHeightOf (mode : String) : ℕ :=
  if mode = "MSX1" then 192 else if mode = "MSX2" then 212 else 224

/-- Step 1 of `preprocess` (source lines 24–26): resize to width 256,
with `new_height = int(height * (256 / width))`. -/
def preResized (img : Img) : Img :=
  resizeNearest img 256 (truncQ ((img.height : ℚ) * (256 / (img.width : ℚ))))

/-- `preprocess(image, mode, background_color)`: force width 256, then
centre-crop (when too tall) or centre-paste onto a background canvas
(when too short) to the mode's target height. -/
def preprocess (img : Img) (mode : String) (bg : ℕ × ℕ × ℕ) : Img :=
  if targetHeightOf mode < (preResized img).height then
    cropBox (preResized img) 0 (((preResized img).height - targetHeightOf mode) / 2) 256
      (((preResized img).height - targetHeightOf mode) / 2 + targetHeightOf mode)
  else
    pasteAt (newCanvas 256 (targetHeightOf mode) bg) (preResized img) 0
      ((targetHeightOf mode - (preResized img).height) / 2)

/-- The in-place row scan of `horizontal_blur` (source lines 76–79), one
channel at a time: `n` remaining iterations, `x` the current column,
`row` the current (partially updated) row contents.  Each step overwrites
column `x` with `trunc(row[x-1]*r + row[x]*(1-r))`, where `row[x-1]` has
already been updated by the previous step. -/
def blurAuxF (r : ℚ) : ℕ → ℕ → (ℕ → ℕ) → ℕ → ℕ
  | 0, _, row => row
  | n + 1, x, row =>
      blurAuxF r n (x + 1)
        (fun j =>
          if j = x then truncQ ((row (x - 1) : ℚ) * r + (row x : ℚ) * (1 - r))
          else row j)

/-- One row of `horizontal_blur` on one channel: the loop
`for x in range(1, width - 1)` over a row of width `w`. -/
def blurRowF (r : ℚ) (w : ℕ) (row : ℕ → ℕ) : ℕ → ℕ :=
  blurAuxF r (w - 2) 1 row

/-- Closed-form recurrence satisfied by the in-place scan: column 0 and
columns ≥ w-1 keep their original value; an interior column x+1 is
`trunc(spec(x)*r + orig(x+1)*(1-r))`.  Proved equal to `blurRowF` in
`blurRowF_eq_spec`. -/
def blurSpec (r : ℚ) (w : ℕ) (orig : ℕ → ℕ) : ℕ → ℕ
  | 0 => orig 0
  | x + 1 =>
      if x + 2 < w then
        truncQ ((blurSpec r w orig x : ℚ) * r + (orig (x + 1) : ℚ) * (1 - r))
      else orig (x + 1)

/-- `horizontal_blur(rgb_image, blur_ratio_rgb)`: every row is processed
independently; the three channels are updated independently of each other
(each assignment reads only its own channel), so the image-level result
is the per-channel row scan applied to each row of each channel. -/
def horizontal_blur (img : Img) (rR rG rB : ℚ) : Img :=
  ⟨img.width, img.height, fun x y =>
    (blurRowF rR img.width (fun i => (img.pix i y).1) x,
     blurRowF rG img.width (fun i => (img.pix i y).2.1) x,
     blurRowF rB img.width (fun i => (img.pix i y).2.2) x)⟩

/-- One channel of the scanline darkening assignment
`np.clip(v * (1.0 - ratio), 0, 255)` stored back into a uint8 cell. -/
def darkChan (v : ℕ) (sl : ℚ) : ℕ :=
  truncQ (min 255 (max 0 ((v : ℚ) * (1 - sl))))

/-- The even-row darkening loop of `upscale_with_crt_effect` (source
lines 109–113): every pixel at an even row and interior column
(1 ≤ x < width−1) has each channel scaled by (1 − ratio) and clipped;
all other pixels are untouched. -/
def darkenEvenRows (img : Img) (sl : ℚ) : Img :=
  ⟨img.width, img.height, fun x y =>
    if y % 2 = 0 ∧ 1 ≤ x ∧ x + 1 < img.width then
      (darkChan (img.pix x y).1 sl, darkChan (img.pix x y).2.1 sl,
       darkChan (img.pix x y).2.2 sl)
    else img.pix x y⟩

/-- The guarded scanline block of `upscale_with_crt_effect` (source lines
105–114): when the ratio is positive, double the row count with a nearest
resize and darken even rows; otherwise the image passes through
untouched. -/
def scanlineStep (img : Img) (sl : ℚ) : Img :=
  if 0 < sl then darkenEvenRows (resizeNearest img img.width (img.height * 2)) sl
  else img

/-- `np.maximum` of two images, pixelwise and channelwise. -/
def imgMax (a b : Img) : Img :=
  ⟨a.width, a.height, fun x y =>
    (max (a.pix x y).1 (b.pix x y).1,
     max (a.pix x y).2.1 (b.pix x y).2.1,
     max (a.pix x y).2.2 (b.pix x y).2.2)⟩

/-- `upscale_with_crt_effect(image_obj, width, crt_width_ratio,
xblur_ratio, scan_line_ratio)`.  The two `assert` statements become an
`Except.error` carrying the source's diagnostic text; the success path
follows the source's step order: inner-width bicubic squeeze, scanline
scale, guarded scanline block, final bicubic upscale, horizontal blur
with per-channel weights (0.8, 0.6, 0.0)·xb, brighter-wins composite. -/
def upscale_with_crt_effect (img : Img) (w : ℕ) (cw xb sl : ℚ) :
    Except String (Img × ℚ) :=
  if img.width = 256 ∨ img.width = 320 ∨ img.width = 512 then
    if img.height = 192 ∨ img.height = 212 ∨ img.height = 224 then
      let innerW := truncQ ((w : ℚ) * cw)
      let finalH := truncQ (((w : ℚ) * 2 * (img.height : ℚ)) / 586)
      let img1 := resizeBicubic img innerW img.height
      let scanScale : ℚ := (finalH : ℚ) / ((img1.height : ℚ) * 2)
      let img2 := scanlineStep img1 sl
      let img3 := resizeBicubic img2 w finalH
      let boke := horizontal_blur img3 (0.8 * xb) (0.6 * xb) (0 * xb)
      Except.ok (imgMax img3 boke, scanScale)
    else Except.error "Height must be 192, 212 or 224"
  else Except.error ("Width must be 256, 320, 512, but got " ++ toString img.width)

/-- One output pixel of the decomposition loop of
`generate_subpixel_decomposition` (source lines 144–166), before the
brightness/saturation compensation.  The loop walks group starts
`x = 0, 3, 6, ...` and writes the three columns of a group only when the
guard `x + 2 < width` holds; a pixel's group start is `x - x % 3`, and
pixels of an unwritten group keep the canvas colour, pure black. -/
def subpixelPix (img : Img) (sr : ℚ) (x y : ℕ) : ℕ × ℕ × ℕ :=
  if x - x % 3 + 2 < img.width then
    let p := img.pix x y
    let k : ℚ := 1 - sr
    if y % 8 < 4 then
      if x % 3 = 0 then (p.1, truncQ ((p.2.1 : ℚ) * k), truncQ ((p.2.2 : ℚ) * k))
      else if x % 3 = 1 then (truncQ ((p.1 : ℚ) * k), p.2.1, truncQ ((p.2.2 : ℚ) * k))
      else (truncQ ((p.1 : ℚ) * k), truncQ ((p.2.1 : ℚ) * k), p.2.2)
    else
      if x % 3 = 0 then (truncQ ((p.1 : ℚ) * k), p.2.1, truncQ ((p.2.2 : ℚ) * k))
      else if x % 3 = 1 then (truncQ ((p.1 : ℚ) * k), truncQ ((p.2.1 : ℚ) * k), p.2.2)
      else (p.1, truncQ ((p.2.1 : ℚ) * k), truncQ ((p.2.2 : ℚ) * k))
  else (0, 0, 0)

/-- The decomposition stage of `generate_subpixel_decomposition`, before
the external brightness/saturation enhancement calls. -/
def subpixelDecompose (img : Img) (sr : ℚ) : Img :=
  ⟨img.width, img.height, fun x y => subpixelPix img sr x y⟩

/-- The horizontal-margin width computation of `main` (source lines
218–221): `int(width / 586 * 597)`, then rounded up to even. -/
def hMarginWidth (w : ℕ) : ℕ :=
  let m := truncQ ((w : ℚ) / 586 * 597)
  if m % 2 = 1 then m + 1 else m

/-- A 3×1 test image whose first channel row is (1, 0, 0). -/
def img3 : Img := ⟨3, 1, fun x _ => (if x = 0 then 1 else 0, 0, 0)⟩

/-- A 4×2 constant test image. -/
def img4 : Img := ⟨4, 2, fun _ _ => (10, 20, 30)⟩

/-- A 3×5 test image (width 3, height 5). -/
def img35 : Img := ⟨3, 5, fun _ _ => (0, 0, 0)⟩

/-- A 256×224 constant grey test image (a valid upscaler input). -/
def img256 : Img := ⟨256, 224, fun _ _ => (128, 128, 128)⟩

/-- A 257×224 test image (invalid width for the upscaler). -/
def img257 : Img := ⟨257, 224, fun _ _ => (0, 0, 0)⟩

/-- A 256×200 test image (invalid height for the upscaler). -/
def img200 : Img := ⟨256, 200, fun _ _ => (0, 0, 0)⟩

/-! ### Basic facts about the truncation -/

theorem truncQ_natCast (n : ℕ) : truncQ (n : ℚ) = n := Nat.floor_natCast n

theorem truncQ_le_of_le {q : ℚ} {n : ℕ} (h : q ≤ (n : ℚ)) : truncQ n ≥ truncQ q := by
  exact Nat.floor_le_floor h

theorem truncQ_le (q : ℚ) (n : ℕ) (h : q ≤ (n : ℚ)) : truncQ q ≤ n := by
  calc truncQ q ≤ truncQ (n : ℚ) := Nat.floor_le_floor h
  _ = n := truncQ_natCast n

/-! ### The in-place row scan implements the causal recurrence -/

theorem blurAuxF_eq (r : ℚ) (w : ℕ) (orig : ℕ → ℕ) :
    ∀ (n x : ℕ) (row : ℕ → ℕ), 1 ≤ x → x + n + 1 = w →
      (∀ j, j < x → row j = blurSpec r w orig j) →
      (∀ j, x ≤ j → row j = orig j) →
      ∀ j, blurAuxF r n x row j = blurSpec r w orig j := by
  intro n
  induction n with
  | zero =>
    intro x row hx hw hlt hge j
    rw [blurAuxF]
    by_cases hj : j < x
    · exact hlt j hj
    · push_neg at hj
      rw [hge j hj]
      obtain ⟨m, rfl⟩ : ∃ m, j = m + 1 := ⟨j - 1, by omega⟩
      rw [blurSpec, if_neg (by omega)]
  | succ n ih =>
    intro x row hx hw hlt hge j
    rw [blurAuxF]
    refine ih (x + 1) _ (by omega) (by omega) ?_ ?_ j
    · intro j hj
      by_cases hjx : j = x
      · subst hjx
        simp only [if_pos rfl]
        rw [hlt (j - 1) (by omega), hge j le_rfl]
        obtain ⟨m, rfl⟩ : ∃ m, j = m + 1 := ⟨j - 1, by omega⟩
        have hcond : m + 2 < w := by omega
        rw [blurSpec, if_pos hcond]
        simp
      · simp only [if_neg hjx]
        exact hlt j (by omega)
    · intro j hj
      simp only [if_neg (by omega : ¬ j = x)]
      exact hge j (by omega)

theorem blurRowF_eq_spec (r : ℚ) (w : ℕ) (orig : ℕ → ℕ) (j : ℕ) :
    blurRowF r w orig j = blurSpec r w orig j := by
  by_cases hw : 2 ≤ w
  · exact blurAuxF_eq r w orig (w - 2) 1 orig le_rfl (by omega)
      (fun j hj => by
        interval_cases j
        rfl)
      (fun j _ => rfl) j
  · rw [blurRowF, show w - 2 = 0 from by omega, blurAuxF]
    match j with
    | 0 => rfl
    | m + 1 => rw [blurSpec, if_neg (by omega)]

/-- Each channel of the blurred image is the row scan of that channel's
row with that channel's weight. -/
theorem hblur_chan (img : Img) (rR rG rB : ℚ) (x y : ℕ) :
    ∀ c, chan ((horizontal_blur img rR rG rB).pix x y) c
      = blurRowF (ratioOf c rR rG rB) img.width (fun i => chan (img.pix i y) c) x := by
  intro c
  match c with
  | 0 => rfl
  | 1 => rfl
  | n + 2 => rfl

/-- Unfolding lemma: an interior column of the row recurrence. -/
theorem blurSpec_interior (r : ℚ) (w : ℕ) (orig : ℕ → ℕ) (m : ℕ) (h : m + 2 < w) :
    blurSpec r w orig (m + 1)
      = truncQ ((blurSpec r w orig m : ℚ) * r + (orig (m + 1) : ℚ) * (1 - r)) := by
  rw [blurSpec, if_pos h]

/-- Unfolding lemma: a column at or beyond width−1 keeps its value. -/
theorem blurSpec_last (r : ℚ) (w : ℕ) (orig : ℕ → ℕ) (m : ℕ) (h : ¬ m + 2 < w) :
    blurSpec r w orig (m + 1) = orig (m + 1) := by
  rw [blurSpec, if_neg h]

/-- With weight 0, the row recurrence returns the original row. -/
theorem blurSpec_zero (w : ℕ) (orig : ℕ → ℕ) : ∀ x, blurSpec 0 w orig x = orig x := by
  intro x
  induction x with
  | zero => rfl
  | succ m ih =>
    rw [blurSpec]
    split
    · rw [ih]
      simp [truncQ_natCast]
    · rfl

/-- With weight 1, an interior column of the row recurrence copies the
already-updated left neighbour. -/
theorem blurSpec_one (w : ℕ) (orig : ℕ → ℕ) (m : ℕ) (h : m + 2 < w) :
    blurSpec 1 w orig (m + 1) = blurSpec 1 w orig m := by
  rw [blurSpec, if_pos h]
  simp [truncQ_natCast]

/-- A convex combination of channel values is bounded by their maximum. -/
theorem convex_le_max (a b : ℕ) (r : ℚ) (h0 : 0 ≤ r) (h1 : r ≤ 1) :
    (a : ℚ) * r + (b : ℚ) * (1 - r) ≤ ((max a b : ℕ) : ℚ) := by
  have h2 : (a : ℚ) ≤ ((max a b : ℕ) : ℚ) := by exact_mod_cast Nat.le_max_left a b
  have h3 : (b : ℚ) ≤ ((max a b : ℕ) : ℚ) := by exact_mod_cast Nat.le_max_right a b
  nlinarith

/-- A convex combination of channel values is nonnegative. -/
theorem convex_nonneg (a b : ℕ) (r : ℚ) (h0 : 0 ≤ r) (h1 : r ≤ 1) :
    0 ≤ (a : ℚ) * r + (b : ℚ) * (1 - r) := by
  have h2 : (0 : ℚ) ≤ (a : ℚ) := Nat.cast_nonneg a
  have h3 : (0 : ℚ) ≤ (b : ℚ) := Nat.cast_nonneg b
  nlinarith

/-- All values of the row recurrence stay within the 8-bit range when the
input row does and the weight lies in [0,1]. -/
theorem blurSpec_le_255 (r : ℚ) (w : ℕ) (orig : ℕ → ℕ) (h0 : 0 ≤ r) (h1 : r ≤ 1)
    (hb : ∀ i, orig i ≤ 255) : ∀ x, blurSpec r w orig x ≤ 255 := by
  intro x
  induction x with
  | zero => exact hb 0
  | succ m ih =>
    rw [blurSpec]
    split
    · refine truncQ_le _ 255 ?_
      have ha : ((blurSpec r w orig m : ℕ) : ℚ) ≤ 255 := by exact_mod_cast ih
      have hbq : ((orig (m + 1) : ℕ) : ℚ) ≤ 255 := by exact_mod_cast hb (m + 1)
      push_cast
      nlinarith
    · exact hb (m + 1)

/-- C1 (amended).  In the Horizontal Bleed Filter, for every row
(processed independently, left to right), every channel c and every
interior column x (1 ≤ x < width-1), the new value equals
trunc(updatedValue[x-1] * ratio_c + originalRowValue[x] * (1 - ratio_c)) —
the float value is truncated to an integer, not rounded to nearest —
where updatedValue[x-1] is the already-blurred in-place predecessor, and
the border columns x = 0 and x = width-1 are left untouched. -/
theorem hblur_causal_recurrence (img : Img) (rR rG rB : ℚ) (x y c : ℕ)
    (hx1 : 1 ≤ x) (hx2 : x + 1 < img.width) :
    chan ((horizontal_blur img rR rG rB).pix x y) c
        = truncQ ((chan ((horizontal_blur img rR rG rB).pix (x - 1) y) c : ℚ) * ratioOf c rR rG rB
            + (chan (img.pix x y) c : ℚ) * (1 - ratioOf c rR rG rB))
      ∧ chan ((horizontal_blur img rR rG rB).pix 0 y) c = chan (img.pix 0 y) c
      ∧ chan ((horizontal_blur img rR rG rB).pix (img.width - 1) y) c
          = chan (img.pix (img.width - 1) y) c := by
  simp only [hblur_chan, blurRowF_eq_spec]
  refine ⟨?_, rfl, ?_⟩
  · obtain ⟨m, rfl⟩ : ∃ m, x = m + 1 := ⟨x - 1, by omega⟩
    rw [blurSpec_interior _ img.width _ m (by omega)]
    simp
  · obtain ⟨m, hm⟩ : ∃ m, img.width - 1 = m + 1 := ⟨img.width - 2, by omega⟩
    rw [hm]
    exact blurSpec_last _ img.width _ m (by omega)

/-- Witness for C1 (amended) on the concrete 3×1 image img3 with red
weight 4/5, at column 1, channel 0. -/
theorem hblur_causal_recurrence_witness :
    1 ≤ 1 ∧ 1 + 1 < img3.width ∧
    (chan ((horizontal_blur img3 (4/5) 0 0).pix 1 0) 0
        = truncQ ((chan ((horizontal_blur img3 (4/5) 0 0).pix (1 - 1) 0) 0 : ℚ) * ratioOf 0 (4/5) 0 0
            + (chan (img3.pix 1 0) 0 : ℚ) * (1 - ratioOf 0 (4/5) 0 0))
      ∧ chan ((horizontal_blur img3 (4/5) 0 0).pix 0 0) 0 = chan (img3.pix 0 0) 0
      ∧ chan ((horizontal_blur img3 (4/5) 0 0).pix (img3.width - 1) 0) 0
          = chan (img3.pix (img3.width - 1) 0) 0) :=
  ⟨le_rfl, by decide,
    hblur_causal_recurrence img3 (4/5) 0 0 1 0 0 le_rfl (by decide)⟩

/-- Counterexample to C1 as stated: on img3 (first red row 1,0,0) with
red weight 4/5, the updated interior value is trunc(0.8) = 0, whereas the
claimed round(updated[0]*0.8 + orig[1]*0.2) = round(0.8) = 1. -/
theorem hblur_round_claim_false :
    chan ((horizontal_blur img3 (4/5) 0 0).pix 1 0) 0 = 0
    ∧ roundQ ((chan ((horizontal_blur img3 (4/5) 0 0).pix 0 0) 0 : ℚ) * (4/5)
        + (chan (img3.pix 1 0) 0 : ℚ) * (1 - 4/5)) = 1
    ∧ chan ((horizontal_blur img3 (4/5) 0 0).pix 1 0) 0
        ≠ roundQ ((chan ((horizontal_blur img3 (4/5) 0 0).pix 0 0) 0 : ℚ) * (4/5)
            + (chan (img3.pix 1 0) 0 : ℚ) * (1 - 4/5)) := by
  have h1 : chan ((horizontal_blur img3 (4/5) 0 0).pix 1 0) 0 = 0 := by
    rw [hblur_chan, blurRowF_eq_spec]
    norm_num [blurSpec, img3, chan, ratioOf, truncQ]
  have h0 : chan ((horizontal_blur img3 (4/5) 0 0).pix 0 0) 0 = 1 := by
    rw [hblur_chan, blurRowF_eq_spec]
    norm_num [blurSpec, img3, chan]
  have h2 : roundQ ((chan ((horizontal_blur img3 (4/5) 0 0).pix 0 0) 0 : ℚ) * (4/5)
      + (chan (img3.pix 1 0) 0 : ℚ) * (1 - 4/5)) = 1 := by
    rw [h0]
    norm_num [img3, chan, roundQ, round_eq]
  exact ⟨h1, h2, by rw [h1, h2]; exact Nat.zero_ne_one⟩

/-- C7.  Horizontal Bleed Filter on any image: a channel whose weight is
0 is unchanged at every interior pixel (indeed at every pixel), and a
channel whose weight is 1 copies, at every interior pixel, its
already-updated left neighbour. -/
theorem hblur_zero_one (img : Img) (rR rG rB : ℚ) (x y c : ℕ) :
    (ratioOf c rR rG rB = 0 →
        chan ((horizontal_blur img rR rG rB).pix x y) c = chan (img.pix x y) c)
    ∧ (ratioOf c rR rG rB = 1 → 1 ≤ x → x + 1 < img.width →
        chan ((horizontal_blur img rR rG rB).pix x y) c
          = chan ((horizontal_blur img rR rG rB).pix (x - 1) y) c) := by
  constructor
  · intro h
    rw [hblur_chan, blurRowF_eq_spec, h, blurSpec_zero]
  · intro h hx1 hx2
    rw [hblur_chan, hblur_chan, blurRowF_eq_spec, blurRowF_eq_spec, h]
    obtain ⟨m, rfl⟩ : ∃ m, x = m + 1 := ⟨x - 1, by omega⟩
    rw [show m + 1 - 1 = m from rfl]
    exact blurSpec_one img.width _ m (by omega)

/-- Witness for C7 on img3: channel 0 with weight 0 is unchanged at
column 1; channel 0 with weight 1 copies the updated left neighbour. -/
theorem hblur_zero_one_witness :
    chan ((horizontal_blur img3 0 0 0).pix 1 0) 0 = chan (img3.pix 1 0) 0
    ∧ chan ((horizontal_blur img3 1 0 0).pix 1 0) 0
        = chan ((horizontal_blur img3 1 0 0).pix 0 0) 0 :=
  ⟨(hblur_zero_one img3 0 0 0 1 0 0).1 rfl,
   (hblur_zero_one img3 1 0 0 1 0 0).2 rfl le_rfl (by decide)⟩

/-- C10.  For per-channel weights in [0,1] and 8-bit input rows, the
intermediate value updated[x-1]*r + orig[x]*(1-r) computed at an interior
column is a convex combination lying in [0, 255], so the narrowing cast
to an 8-bit channel never wraps, and the stored output channel value is
bounded by the maximum of the updated left neighbour and the original
value. -/
theorem hblur_no_overflow (img : Img) (rR rG rB : ℚ) (x y c : ℕ)
    (h0 : 0 ≤ ratioOf c rR rG rB) (h1 : ratioOf c rR rG rB ≤ 1)
    (hb : ∀ i, chan (img.pix i y) c ≤ 255)
    (hx1 : 1 ≤ x) (hx2 : x + 1 < img.width) :
    0 ≤ (chan ((horizontal_blur img rR rG rB).pix (x - 1) y) c : ℚ) * ratioOf c rR rG rB
        + (chan (img.pix x y) c : ℚ) * (1 - ratioOf c rR rG rB)
    ∧ (chan ((horizontal_blur img rR rG rB).pix (x - 1) y) c : ℚ) * ratioOf c rR rG rB
        + (chan (img.pix x y) c : ℚ) * (1 - ratioOf c rR rG rB) ≤ 255
    ∧ chan ((horizontal_blur img rR rG rB).pix x y) c
        ≤ max (chan ((horizontal_blur img rR rG rB).pix (x - 1) y) c)
            (chan (img.pix x y) c) := by
  have hleft : chan ((horizontal_blur img rR rG rB).pix (x - 1) y) c ≤ 255 := by
    rw [hblur_chan, blurRowF_eq_spec]
    exact blurSpec_le_255 _ _ _ h0 h1 hb (x - 1)
  refine ⟨convex_nonneg _ _ _ h0 h1, ?_, ?_⟩
  · have ha : ((chan ((horizontal_blur img rR rG rB).pix (x - 1) y) c : ℕ) : ℚ) ≤ 255 := by
      exact_mod_cast hleft
    have hbq : ((chan (img.pix x y) c : ℕ) : ℚ) ≤ 255 := by exact_mod_cast hb x
    nlinarith
  · have hrec := (hblur_causal_recurrence img rR rG rB x y c hx1 hx2).1
    rw [hrec]
    refine truncQ_le _ _ ?_
    exact convex_le_max _ _ _ h0 h1

/-- Witness for C10 on img3 with red weight 1/2 at column 1. -/
theorem hblur_no_overflow_witness :
    0 ≤ ratioOf 0 (1/2) 0 0 ∧ ratioOf 0 (1/2) 0 0 ≤ 1
    ∧ (∀ i, chan (img3.pix i 0) 0 ≤ 255)
    ∧ (0 ≤ (chan ((horizontal_blur img3 (1/2) 0 0).pix (1 - 1) 0) 0 : ℚ) * ratioOf 0 (1/2) 0 0
          + (chan (img3.pix 1 0) 0 : ℚ) * (1 - ratioOf 0 (1/2) 0 0)
        ∧ (chan ((horizontal_blur img3 (1/2) 0 0).pix (1 - 1) 0) 0 : ℚ) * ratioOf 0 (1/2) 0 0
          + (chan (img3.pix 1 0) 0 : ℚ) * (1 - ratioOf 0 (1/2) 0 0) ≤ 255
        ∧ chan ((horizontal_blur img3 (1/2) 0 0).pix 1 0) 0
          ≤ max (chan ((horizontal_blur img3 (1/2) 0 0).pix (1 - 1) 0) 0)
              (chan (img3.pix 1 0) 0)) :=
  ⟨by norm_num [ratioOf], by norm_num [ratioOf],
   fun i => by by_cases h : i = 0 <;> simp [img3, chan, h],
   hblur_no_overflow img3 (1/2) 0 0 1 0 0 (by norm_num [ratioOf]) (by norm_num [ratioOf])
     (fun i => by by_cases h : i = 0 <;> simp [img3, chan, h]) le_rfl (by decide)⟩

/-! ### Scanline darkening (C8) -/

/-- C8.  The guarded scanline block with ratio 0 is a pixel-identical
no-op (the whole block, doubling included, is skipped); with ratio 1,
every channel of every pixel at an even row index and interior column
(1 ≤ x < width-1) becomes 0, while odd rows and border columns are
untouched. -/
theorem scanline_zero_one (img : Img) :
    scanlineStep img 0 = img
    ∧ (∀ x y, y % 2 = 0 → 1 ≤ x → x + 1 < img.width →
        (darkenEvenRows img 1).pix x y = (0, 0, 0))
    ∧ (∀ x y, ¬ (y % 2 = 0 ∧ 1 ≤ x ∧ x + 1 < img.width) →
        (darkenEvenRows img 1).pix x y = img.pix x y) := by
  refine ⟨?_, ?_, ?_⟩
  · simp [scanlineStep]
  · intro x y hy hx1 hx2
    show (if y % 2 = 0 ∧ 1 ≤ x ∧ x + 1 < img.width then
        (darkChan (img.pix x y).1 1, darkChan (img.pix x y).2.1 1,
         darkChan (img.pix x y).2.2 1)
      else img.pix x y) = (0, 0, 0)
    rw [if_pos ⟨hy, hx1, hx2⟩]
    norm_num [darkChan, truncQ]
  · intro x y h
    show (if y % 2 = 0 ∧ 1 ≤ x ∧ x + 1 < img.width then
        (darkChan (img.pix x y).1 1, darkChan (img.pix x y).2.1 1,
         darkChan (img.pix x y).2.2 1)
      else img.pix x y) = img.pix x y
    rw [if_neg h]

/-- Witness for C8 on the concrete 4×2 image img4: ratio 0 passes the
image through; ratio 1 zeroes an even-row interior pixel and leaves an
odd-row pixel untouched. -/
theorem scanline_zero_one_witness :
    scanlineStep img4 0 = img4
    ∧ (darkenEvenRows img4 1).pix 1 0 = (0, 0, 0)
    ∧ (darkenEvenRows img4 1).pix 1 1 = img4.pix 1 1 :=
  ⟨(scanline_zero_one img4).1,
   (scanline_zero_one img4).2.1 1 0 rfl le_rfl (by decide),
   (scanline_zero_one img4).2.2 1 1 (by decide)⟩

/-! ### Frame Normalizer (C2, C6) -/

/-- C2.  For any input image with positive width and height and each of
the three modes, the output of the Frame Normalizer has width exactly 256
and height exactly the mode's canonical target height: 192 for MSX1,
212 for MSX2 and 224 otherwise; no error path exists. -/
theorem preprocess_dims (img : Img) (mode : String) (bg : ℕ × ℕ × ℕ)
    (hw : 0 < img.width) (hh : 0 < img.height) :
    (preprocess img mode bg).width = 256
    ∧ (preprocess img mode bg).height = targetHeightOf mode
    ∧ (mode = "MSX1" → targetHeightOf mode = 192)
    ∧ (mode = "MSX2" → targetHeightOf mode = 212)
    ∧ (mode ≠ "MSX1" → mode ≠ "MSX2" → targetHeightOf mode = 224) := by
  refine ⟨?_, ?_, ?_, ?_, ?_⟩
  · rw [preprocess]
    split
    · show (256 : ℕ) - 0 = 256
      rfl
    · rfl
  · rw [preprocess]
    split
    · show ((preResized img).height - targetHeightOf mode) / 2 + targetHeightOf mode
          - ((preResized img).height - targetHeightOf mode) / 2 = targetHeightOf mode
      omega
    · rfl
  · intro h
    rw [targetHeightOf, if_pos h]
  · intro h
    by_cases h1 : mode = "MSX1"
    · rw [h1] at h
      exact absurd h (by decide)
    · rw [targetHeightOf, if_neg h1, if_pos h]
  · intro h1 h2
    rw [targetHeightOf, if_neg h1, if_neg h2]

/-- Witness for C2 on img4 in mode MSX2. -/
theorem preprocess_dims_witness :
    0 < img4.width ∧ 0 < img4.height
    ∧ (preprocess img4 "MSX2" (0, 0, 0)).width = 256
    ∧ (preprocess img4 "MSX2" (0, 0, 0)).height = targetHeightOf "MSX2"
    ∧ targetHeightOf "MSX2" = 212 :=
  ⟨by decide, by decide,
   (preprocess_dims img4 "MSX2" (0, 0, 0) (by decide) (by decide)).1,
   (preprocess_dims img4 "MSX2" (0, 0, 0) (by decide) (by decide)).2.1,
   (preprocess_dims img4 "MSX2" (0, 0, 0) (by decide) (by decide)).2.2.2.1 rfl⟩

/-- C6 (amended).  The intermediate image of the Frame Normalizer's first
step has width 256 and height int-truncated — floor(h·256/w), the
truncation of h·(256/w), not round(h·256/w). -/
theorem preResized_dims (img : Img) (hw : 0 < img.width) :
    (preResized img).width = 256
    ∧ (preResized img).height = img.height * 256 / img.width := by
  refine ⟨rfl, ?_⟩
  show truncQ ((img.height : ℚ) * (256 / (img.width : ℚ))) = img.height * 256 / img.width
  rw [truncQ, mul_div_assoc' (img.height : ℚ) 256 (img.width : ℚ)]
  rw [show ((img.height : ℚ) * 256) = ((img.height * 256 : ℕ) : ℚ) by push_cast; ring]
  rw [Nat.floor_div_nat, Nat.floor_natCast]

/-- Witness for C6 (amended) on the 3×5 image img35: the intermediate
height is 5·256/3 = 426. -/
theorem preResized_dims_witness :
    0 < img35.width
    ∧ (preResized img35).width = 256
    ∧ (preResized img35).height = img35.height * 256 / img35.width
    ∧ img35.height * 256 / img35.width = 426 :=
  ⟨by decide, (preResized_dims img35 (by decide)).1,
   (preResized_dims img35 (by decide)).2, by decide⟩

/-- Counterexample to C6 as stated: for a 3×5 input the intermediate
height is int(5·(256/3)) = int(426.67) = 426, but round(5·256/3) = 427. -/
theorem preResized_round_claim_false :
    (preResized img35).height = 426
    ∧ roundQ ((img35.height : ℚ) * (256 / (img35.width : ℚ))) = 427
    ∧ (preResized img35).height
        ≠ roundQ ((img35.height : ℚ) * (256 / (img35.width : ℚ))) := by
  have h1 : (preResized img35).height = 426 := by
    show truncQ ((img35.height : ℚ) * (256 / (img35.width : ℚ))) = 426
    rw [truncQ, Nat.floor_eq_iff (by norm_num [img35])]
    norm_num [img35]
  have h2 : roundQ ((img35.height : ℚ) * (256 / (img35.width : ℚ))) = 427 := by
    rw [roundQ,
      show round ((img35.height : ℚ) * (256 / (img35.width : ℚ))) = 427 from by
        norm_num [round_eq, img35]]
    rfl
  exact ⟨h1, h2, by rw [h1, h2]; norm_num⟩

/-! ### CRT Upscaler preconditions and dimensions (C3, C4) -/

/-- C3.  The CRT Upscaler fails with a diagnostic naming the offending
dimension if and only if the input width is not in {256, 320, 512} or the
input height is not in {192, 212, 224}; in particular an image of width
257 is rejected with the width diagnostic (carrying the offending value)
and a 256-wide image of height 200 is rejected with the height
diagnostic; valid inputs are never coerced into an error. -/
theorem upscale_precondition (img : Img) (w : ℕ) (cw xb sl : ℚ) :
    ((∃ e, upscale_with_crt_effect img w cw xb sl = Except.error e)
      ↔ ¬ (img.width = 256 ∨ img.width = 320 ∨ img.width = 512)
        ∨ ¬ (img.height = 192 ∨ img.height = 212 ∨ img.height = 224))
    ∧ (img.width = 257 →
        upscale_with_crt_effect img w cw xb sl
          = Except.error ("Width must be 256, 320, 512, but got " ++ toString img.width))
    ∧ (img.width = 256 → img.height = 200 →
        upscale_with_crt_effect img w cw xb sl
          = Except.error "Height must be 192, 212 or 224") := by
  by_cases hW : img.width = 256 ∨ img.width = 320 ∨ img.width = 512
  · by_cases hH : img.height = 192 ∨ img.height = 212 ∨ img.height = 224
    · refine ⟨?_, ?_, ?_⟩
      · simp [upscale_with_crt_effect, hW, hH]
      · intro h257
        rw [h257] at hW
        exact absurd hW (by decide)
      · intro _ h200
        rw [h200] at hH
        exact absurd hH (by decide)
    · refine ⟨?_, ?_, ?_⟩
      · simp [upscale_with_crt_effect, hW, hH]
      · intro h257
        rw [h257] at hW
        exact absurd hW (by decide)
      · intro _ _
        simp [upscale_with_crt_effect, hW, hH]
  · refine ⟨?_, ?_, ?_⟩
    · simp [upscale_with_crt_effect, hW]
    · intro _
      simp [upscale_with_crt_effect, hW]
    · intro h256 _
      exact absurd (Or.inl h256) hW

/-- Witness for C3: a 257×224 input and a 256×200 input are both
rejected with their respective diagnostics. -/
theorem upscale_precondition_witness :
    (∃ e, upscale_with_crt_effect img257 586 1 0 0 = Except.error e)
    ∧ upscale_with_crt_effect img257 586 1 0 0
        = Except.error ("Width must be 256, 320, 512, but got " ++ toString img257.width)
    ∧ upscale_with_crt_effect img200 586 1 0 0
        = Except.error "Height must be 192, 212 or 224" :=
  ⟨(upscale_precondition img257 586 1 0 0).1.mpr (Or.inl (by decide)),
   (upscale_precondition img257 586 1 0 0).2.1 rfl,
   (upscale_precondition img200 586 1 0 0).2.2 rfl rfl⟩

/-- C4 (amended).  For every accepted input and every targetWidth, the
CRT Upscaler's output width equals targetWidth and its output height
equals int-truncated targetWidth·2·inputHeight/586 (floor, not round;
the two agree at the claim's instance height 224, targetWidth 586, where
the quotient is the exact integer 448). -/
theorem upscale_dims (img out : Img) (w : ℕ) (cw xb sl sc : ℚ)
    (h : upscale_with_crt_effect img w cw xb sl = Except.ok (out, sc)) :
    out.width = w
    ∧ out.height = truncQ (((w : ℚ) * 2 * (img.height : ℚ)) / 586) := by
  rw [upscale_with_crt_effect] at h
  by_cases hW : img.width = 256 ∨ img.width = 320 ∨ img.width = 512
  case neg =>
    rw [if_neg hW] at h
    exact absurd h (by simp)
  rw [if_pos hW] at h
  by_cases hH : img.height = 192 ∨ img.height = 212 ∨ img.height = 224
  case neg =>
    rw [if_neg hH] at h
    exact absurd h (by simp)
  rw [if_pos hH] at h
  simp only [Except.ok.injEq, Prod.mk.injEq] at h
  obtain ⟨h1, h2⟩ := h
  subst h1
  exact ⟨rfl, rfl⟩

/-- Witness for C4 (amended): on the 256×224 grey image with targetWidth
586 the upscaler succeeds with output size 586×448. -/
theorem upscale_dims_witness :
    ∃ out sc, upscale_with_crt_effect img256 586 1 0 0 = Except.ok (out, sc)
      ∧ out.width = 586 ∧ out.height = 448 := by
  refine ⟨_, _, rfl, ?_⟩
  have h := upscale_dims img256 _ 586 1 0 0 _ rfl
  refine ⟨h.1, ?_⟩
  rw [h.2, truncQ, Nat.floor_eq_iff (by norm_num [img256])]
  norm_num [img256]

/-- Counterexample to C4 as stated: with targetWidth 103 and input height
224 the code's output height is int(46144/586) = int(78.74) = 78, but
round(103·2·224/586) = 79. -/
theorem upscale_round_claim_false :
    ∃ out sc, upscale_with_crt_effect img256 103 1 0 0 = Except.ok (out, sc)
      ∧ out.height = 78
      ∧ roundQ ((((103 : ℕ) : ℚ) * 2 * (img256.height : ℚ)) / 586) = 79
      ∧ out.height ≠ roundQ ((((103 : ℕ) : ℚ) * 2 * (img256.height : ℚ)) / 586) := by
  have h79 : roundQ ((((103 : ℕ) : ℚ) * 2 * (img256.height : ℚ)) / 586) = 79 := by
    rw [roundQ,
      show round ((((103 : ℕ) : ℚ) * 2 * (img256.height : ℚ)) / 586) = 79 from by
        norm_num [round_eq, img256]]
    rfl
  refine ⟨_, _, rfl, ?_, h79, ?_⟩
  · have h := upscale_dims img256 _ 103 1 0 0 _ rfl
    rw [h.2, truncQ, Nat.floor_eq_iff (by norm_num [img256])]
    norm_num [img256]
  · have h := upscale_dims img256 _ 103 1 0 0 _ rfl
    have h78 : truncQ ((((103 : ℕ) : ℚ) * 2 * (img256.height : ℚ)) / 586) = 78 := by
      rw [truncQ, Nat.floor_eq_iff (by norm_num [img256])]
      norm_num [img256]
    rw [h.2, h78, h79]
    norm_num

/-! ### Frame Compositor horizontal margin (C5) -/

/-- Counterexample to C5 as stated: on a 586-wide image the computed
margin width before the evenness step is indeed 597, but 597 is odd, so
the round-up-to-even step changes it and the final margin width is not
597. -/
theorem hmargin_claim_false : hMarginWidth 586 ≠ 597 := by
  have hm : truncQ (((586 : ℕ) : ℚ) / 586 * 597) = 597 := by
    rw [truncQ, Nat.floor_eq_iff (by norm_num)]
    norm_num
  unfold hMarginWidth
  simp only [hm]
  norm_num

/-- C5 (amended).  With hMargin enabled on an image of width 586, the
computed margin width equals round(586/586·597) = 597; 597 is odd, so the
round-up-to-even step increments it, and the final margin width is
598. -/
theorem hmargin_even_step :
    truncQ (((586 : ℕ) : ℚ) / 586 * 597) = 597
    ∧ 597 % 2 = 1
    ∧ hMarginWidth 586 = 598 := by
  have hm : truncQ (((586 : ℕ) : ℚ) / 586 * 597) = 597 := by
    rw [truncQ, Nat.floor_eq_iff (by norm_num)]
    norm_num
  refine ⟨hm, by norm_num, ?_⟩
  unfold hMarginWidth
  simp only [hm]
  norm_num

/-! ### Subpixel Decomposer trailing group (C9) -/

/-- C9.  For every input image, ratio and width not divisible by 3, every
pixel of the partial trailing column group (which satisfies
x + 2 ≥ width) is pure black in the decomposed image before the
brightness/saturation compensation — it is never copied from the
source. -/
theorem subpixel_trailing_black (img : Img) (sr : ℚ) (x y : ℕ)
    (h3 : img.width % 3 ≠ 0)
    (hx1 : img.width - img.width % 3 ≤ x) (hx2 : x < img.width) :
    img.width ≤ x + 2
    ∧ (subpixelDecompose img sr).pix x y = (0, 0, 0) := by
  have hg : ¬ (x - x % 3 + 2 < img.width) := by omega
  refine ⟨by omega, ?_⟩
  show subpixelPix img sr x y = (0, 0, 0)
  rw [subpixelPix, if_neg hg]

/-- Witness for C9 on the 4×2 image img4 (width 4 ≡ 1 mod 3): the lone
trailing column x = 3 is black. -/
theorem subpixel_trailing_black_witness :
    img4.width % 3 ≠ 0 ∧ img4.width - img4.width % 3 ≤ 3 ∧ 3 < img4.width
    ∧ (img4.width ≤ 3 + 2 ∧ (subpixelDecompose img4 (1/2)).pix 3 0 = (0, 0, 0)) :=
  ⟨by decide, by decide, by decide,
   subpixel_trailing_black img4 (1/2) 3 0 (by decide) (by decide) (by decide)⟩
